import Mathlib

/-!
Verification of the PXF per-glyph three-way merge (`tools/pxf_merge.py`).

The program text is shallowly embedded over `Text := List Char`.  Python
strings become `Text`; `None`-able strings become `Option Text`; the glyph
dictionaries become association lists with last-binding-wins lookup, which is
how repeated assignment into a `dict` behaves.  The regular expressions of the
source are compiled by hand into explicit scanners, keeping the semantics of
Python's `re` module (multiline anchors match only around LF; greedy character
classes with backtracking are resolved into their unique successful split).

Unicode caveats, immaterial to every claim treated here: Python's str-mode
regex class `\d` also accepts non-ASCII decimal digits, and `str.lower` folds
non-ASCII letters; the embedding restricts both to ASCII.
-/

set_option maxRecDepth 10000

abbrev Text := List Char

/-- Characters at which Python `str.splitlines` breaks a line. -/
def isBreakChar (c : Char) : Bool :=
  c == '\n' || c == '\r' || c == '\x0b' || c == '\x0c' ||
  c == '\x1c' || c == '\x1d' || c == '\x1e' || c == '\x85' ||
  c == '\u2028' || c == '\u2029'

/-- Python str-mode regex `\s` (Unicode whitespace). -/
def pySpace (c : Char) : Bool :=
  c == ' ' || c == '\t' || c == '\n' || c == '\r' || c == '\x0b' || c == '\x0c' ||
  c == '\x1c' || c == '\x1d' || c == '\x1e' || c == '\x1f' || c == '\x85' ||
  c == '\xa0' || c == '\u1680' || (0x2000 ≤ c.toNat && c.toNat ≤ 0x200a) ||
  c == '\u2028' || c == '\u2029' || c == '\u202f' || c == '\u205f' || c == '\u3000'

/-- Whitespace other than LF: what `\s*` may consume before a multiline `$`
or a literal `\n` stops it. -/
def sameLineWs (c : Char) : Bool := pySpace c && c != '\n'

/-- `s.replace("\r\n", "\n").replace("\r", "\n")`: the two sequential
replacements fuse into one left-to-right scan. -/
def normalize_eol : Text → Text
  | [] => []
  | '\r' :: '\n' :: rest => '\n' :: normalize_eol rest
  | '\r' :: rest => '\n' :: normalize_eol rest
  | c :: rest => c :: normalize_eol rest

/-- Value of a run of ASCII decimal digits, as `int` reads it. -/
def digitsToNat (ds : Text) : Nat := ds.foldl (fun a c => 10 * a + (c.toNat - 48)) 0

/-- Position `p` is the start of a line of `t` (start of text or just after an
LF) — where `(?m)^` matches in Python. -/
def lineStart (t : Text) (p : Nat) : Bool :=
  p == 0 || (t.drop (p - 1)).head? == some '\n'

/-- Index just after the maximal `\s`-run of `t` starting at `i`. -/
def wsRunEnd (t : Text) (i : Nat) : Nat := i + ((t.drop i).takeWhile pySpace).length

/-- Largest index `k` with `p ≤ k < q` and `t[k] = LF`. -/
def lastNl (t : Text) (p q : Nat) : Option Nat :=
  ((List.range (q - p)).filterMap fun d =>
    if (t.drop (p + d)).head? == some '\n' then some (p + d) else none).getLast?

/-- Try `GLYPHS_ANCHOR_RE`, the regex `\s*glyphs:\s*\n`, at position `i` of
`t`; on success return the end of the match.  The leading `\s*` must stop
exactly at the maximal whitespace run (the next literal is a non-space `g`);
the greedy trailing `\s*\n` ends just after the last LF of the whitespace run
following `glyphs:`. -/
def matchAnchorAt (t : Text) (i : Nat) : Option Nat :=
  let j := wsRunEnd t i
  if (String.toList "glyphs:").isPrefixOf (t.drop j) then
    (lastNl t (j + 7) (wsRunEnd t (j + 7))).map (fun k => k + 1)
  else none

/-- `re.search` for the anchor: scan candidate positions left to right
(`(?m)^` holds only at line starts), return the end of the first match. -/
def findAnchorAux (t : Text) : Nat → Nat → Option Nat
  | 0, _ => none
  | fuel + 1, i =>
    if lineStart t i then
      match matchAnchorAt t i with
      | some e => some e
      | none => findAnchorAux t fuel (i + 1)
    else findAnchorAux t fuel (i + 1)

def findAnchor (t : Text) : Option Nat := findAnchorAux t (t.length + 1) 0

/-- `split_header_and_body`: cut at the end of the first anchor match; the
header keeps the anchor line.  Without an anchor, all text is header. -/
def split_header_and_body (t : Text) : Text × Text :=
  match findAnchor t with
  | some e => (t.take e, t.drop e)
  | none => (t, [])

/-- Tail of `GLYPH_START_RE` after the colon: `\s*$` in multiline mode
succeeds iff after a run of same-line whitespace comes an LF or the end. -/
def tailOK (r : Text) : Bool :=
  match r.dropWhile sameLineWs with
  | [] => true
  | '\n' :: _ => true
  | _ => false

/-- `GLYPH_START_RE.match`, the regex `\t(\d+):\s*$`, anchored at the head of
`t`; returns the captured key. -/
def matchStartAt : Text → Option Nat
  | '\t' :: r =>
    let ds := r.takeWhile Char.isDigit
    if ds.isEmpty then none
    else
      match r.drop ds.length with
      | ':' :: r2 => if tailOK r2 then some (digitsToNat ds) else none
      | _ => none
  | _ => none

/-- Offsets of all `GLYPH_START_RE` matches in `body` (`finditer` start
positions; matches never overlap a later start line). -/
def glyphStarts (body : Text) : List Nat :=
  (List.range body.length).filter fun p =>
    lineStart body p && (matchStartAt (body.drop p)).isSome

/-- `chunk.rstrip("\n")`: strip trailing LFs only. -/
def rstripNl (l : Text) : Text := (l.reverse.dropWhile (fun c => c == '\n')).reverse

/-- `parse_glyph_blocks`: cut `body` at the start offsets (sentinel at the
end), re-match each chunk for its key, keep the chunk with exactly one
trailing LF.  Returns `(order, blocks)`; `blocks` is an association list in
which a later duplicate key overwrites an earlier one on lookup. -/
def parse_glyph_blocks (body : Text) : List Nat × List (Nat × Text) :=
  let starts := glyphStarts body
  let bounds := starts.zip (starts.drop 1 ++ [body.length])
  let entries := bounds.filterMap fun se =>
    let chunk := (body.drop se.1).take (se.2 - se.1)
    (matchStartAt chunk).map fun k => (k, rstripNl chunk ++ ['\n'])
  (entries.map (fun e => e.1), entries)

/-- `dict` lookup over an assignment list: the last binding wins. -/
def getBlk (m : List (Nat × Text)) (k : Nat) : Option Text :=
  m.foldl (fun acc e => if e.1 == k then some e.2 else acc) none

def keysOf (m : List (Nat × Text)) : List Nat := m.map (fun e => e.1)

/-- `changed_block`: `(base_blk or "") != (side_blk or "")`. -/
def changed_block (b s : Option Text) : Bool := b.getD [] != s.getD []

/-- Python `str.strip` (no argument): trim `\s` from both ends. -/
def pyStrip (l : Text) : Text :=
  ((l.dropWhile pySpace).reverse.dropWhile pySpace).reverse

/-- Python `str.lower`, restricted to ASCII letters. -/
def pyLower (l : Text) : Text := l.map Char.toLower

/-- `str(v).strip().lower()`, the per-value normalization of choice tokens. -/
def normTok (v : Text) : Text := pyLower (pyStrip v)

/-- `pick_from_choice` (the `k` parameter of the source is unused). -/
def pick_from_choice (bb oo tt : Option Text) (choice : Text) : Option Text :=
  if choice = String.toList "ours" then oo
  else if choice = String.toList "theirs" then tt
  else if choice = String.toList "base" then bb
  else if choice = String.toList "keep" then
    if oo.isSome then oo else if tt.isSome then tt else bb
  else if choice = String.toList "drop" then none
  else none

/-- `choices_int.get(k, "")`: the token the loop consults for key `k`.  The
choices argument models the integer-keyed dictionary (`int(k)` conversion of
external keys is outside the merge core); the value normalization
`str(v).strip().lower()` is applied here, as when `choices_int` is built. -/
def choiceTok (choices : Nat → Option Text) (k : Nat) : Text :=
  match choices k with
  | some v => normTok v
  | none => []

/-- The per-key body of the reconciliation loop of `merge_three`: what
`merged[k]` is assigned. -/
def mergeOutcomeAt (b o t : List (Nat × Text)) (choiceFor : Nat → Text) (k : Nat) :
    Option Text :=
  let bb := getBlk b k
  let oo := getBlk o k
  let tt := getBlk t k
  if !changed_block bb oo && !changed_block bb tt then
    if bb.isSome then bb else if oo.isSome then oo else tt
  else if changed_block bb oo && changed_block bb tt then
    if (choiceFor k).isEmpty then tt else pick_from_choice bb oo tt (choiceFor k)
  else if changed_block bb oo then oo else tt

/-- The loop appends `k` to `changed_both_sides` iff both sides changed and no
(nonempty) choice token exists. -/
def bothPred (b o t : List (Nat × Text)) (choiceFor : Nat → Text) (k : Nat) : Bool :=
  changed_block (getBlk b k) (getBlk o k) && changed_block (getBlk b k) (getBlk t k) &&
    (choiceFor k).isEmpty

/-- The loop appends `k` to `changed_single_side` iff exactly one side
changed. -/
def singlePred (b o t : List (Nat × Text)) (k : Nat) : Bool :=
  changed_block (getBlk b k) (getBlk o k) != changed_block (getBlk b k) (getBlk t k)

/-- Insert into a strictly ascending list, dropping duplicates. -/
def insertKey (k : Nat) : List Nat → List Nat
  | [] => [k]
  | x :: xs => if k < x then k :: x :: xs else if k == x then x :: xs else x :: insertKey k xs

/-- `sorted(set(...))`: ascending, duplicate-free. -/
def sortedUnion (l : List Nat) : List Nat := l.foldr insertKey []

-- ----- the merge pipeline, with each local of `merge_three` as a definition

def headerOf (x : Text) : Text := (split_header_and_body (normalize_eol x)).1

def bodyOf (x : Text) : Text := (split_header_and_body (normalize_eol x)).2

def recordsOf (x : Text) : List (Nat × Text) := (parse_glyph_blocks (bodyOf x)).2

/-- `header = o_header or t_header or b_header`. -/
def headerPick (base ours theirs : Text) : Text :=
  if headerOf ours ≠ [] then headerOf ours
  else if headerOf theirs ≠ [] then headerOf theirs
  else headerOf base

/-- `sorted(all_keys)` where `all_keys = set(b) | set(o) | set(t)`. -/
def allKeysOf (base ours theirs : Text) : List Nat :=
  sortedUnion (keysOf (recordsOf base) ++ keysOf (recordsOf ours) ++ keysOf (recordsOf theirs))

def outcomeOf (base ours theirs : Text) (choices : Nat → Option Text) (k : Nat) :
    Option Text :=
  mergeOutcomeAt (recordsOf base) (recordsOf ours) (recordsOf theirs) (choiceTok choices) k

def bothListOf (base ours theirs : Text) (choices : Nat → Option Text) : List Nat :=
  (allKeysOf base ours theirs).filter
    (bothPred (recordsOf base) (recordsOf ours) (recordsOf theirs) (choiceTok choices))

def singleListOf (base ours theirs : Text) (_choices : Nat → Option Text) : List Nat :=
  (allKeysOf base ours theirs).filter
    (singlePred (recordsOf base) (recordsOf ours) (recordsOf theirs))

/-- Keys of `present_items`, in the ascending order the assembler uses. -/
def presentListOf (base ours theirs : Text) (choices : Nat → Option Text) : List Nat :=
  (allKeysOf base ours theirs).filter fun k => (outcomeOf base ours theirs choices k).isSome

def addedListOf (base ours theirs : Text) (choices : Nat → Option Text) : List Nat :=
  (allKeysOf base ours theirs).filter fun k =>
    (outcomeOf base ours theirs choices k).isSome && (getBlk (recordsOf base) k).isNone

def removedListOf (base ours theirs : Text) (choices : Nat → Option Text) : List Nat :=
  (allKeysOf base ours theirs).filter fun k =>
    (getBlk (recordsOf base) k).isSome && !(outcomeOf base ours theirs choices k).isSome

-- ----- rebuild_num_glyphs

/-- Python `str.splitlines(keepends=True)`: CRLF is a single terminator. -/
def splitlines : Text → List Text
  | [] => []
  | [c] => [[c]]
  | c :: c2 :: rest =>
    if c == '\r' && c2 == '\n' then ['\r', '\n'] :: splitlines rest
    else if isBreakChar c then [c] :: splitlines (c2 :: rest)
    else
      match splitlines (c2 :: rest) with
      | [] => [[c]]
      | l :: ls => (c :: l) :: ls

def joinL : List Text → Text
  | [] => []
  | l :: ls => l ++ joinL ls

/-- The ASCII digit for `d % 10`. -/
def digitChar : Nat → Char
  | 0 => '0'
  | 1 => '1'
  | 2 => '2'
  | 3 => '3'
  | 4 => '4'
  | 5 => '5'
  | 6 => '6'
  | 7 => '7'
  | 8 => '8'
  | 9 => '9'
  | _ => '0'

/-- Most-significant-first digits of `n`; `fuel ≥ n` suffices since `n / 10`
strictly decreases. -/
def natReprAux : Nat → Nat → Text
  | 0, _ => []
  | fuel + 1, n => if n == 0 then [] else natReprAux fuel (n / 10) ++ [digitChar (n % 10)]

/-- Decimal rendering of `count`, as Python `str` formats a nonnegative int. -/
def natRepr (n : Nat) : Text := if n == 0 then ['0'] else natReprAux n n

/-- The line `f"num_glyphs: {count}\n"` written by the rewriter. -/
def numLine (n : Nat) : Text := String.toList "num_glyphs: " ++ natRepr n ++ ['\n']

/-- `num_re.match(l)`, the regex `num_glyphs:\s*\d+\s*\n` anchored at the head
of the line. -/
def numMatch (l : Text) : Bool :=
  (String.toList "num_glyphs:").isPrefixOf l &&
    (let r := (l.drop 11).dropWhile pySpace
     !(r.takeWhile Char.isDigit).isEmpty &&
       (match (r.dropWhile Char.isDigit).dropWhile sameLineWs with
        | '\n' :: _ => true
        | _ => false))

/-- The integer carried by a line matching `num_re`. -/
def numVal (l : Text) : Option Nat :=
  if numMatch l then
    some (digitsToNat (((l.drop 11).dropWhile pySpace).takeWhile Char.isDigit))
  else none

/-- `l.strip() == "glyphs:"`. -/
def glyphsStripLine (l : Text) : Bool := pyStrip l == String.toList "glyphs:"

/-- Replace the first `num_re`-matching line (`replaced` flag of the source). -/
def replaceFirstNum (n : Nat) : List Text → List Text
  | [] => []
  | l :: ls => if numMatch l then numLine n :: ls else l :: replaceFirstNum n ls

/-- Insert the counter line before every line that strips to `glyphs:`. -/
def insertNum (n : Nat) : List Text → List Text
  | [] => []
  | l :: ls =>
    if glyphsStripLine l then numLine n :: l :: insertNum n ls
    else l :: insertNum n ls

/-- `rebuild_num_glyphs`. -/
def rebuild_num_glyphs (header : Text) (count : Nat) : Text :=
  let lines := splitlines header
  if lines.any numMatch then joinL (replaceFirstNum count lines)
  else joinL (insertNum count lines)

/-- The integer in the first `num_glyphs` line of a header, when present. -/
def firstNumVal : List Text → Option Nat
  | [] => none
  | l :: ls =>
    match numVal l with
    | some n => some n
    | none => firstNumVal ls

def extractNumVal (h : Text) : Option Nat := firstNumVal (splitlines h)

-- ----- assembly

def finalHeaderOf (base ours theirs : Text) (choices : Nat → Option Text) : Text :=
  rebuild_num_glyphs (headerPick base ours theirs)
    (presentListOf base ours theirs choices).length

/-- `if not blk.endswith("\n"): blk += "\n"`. -/
def ensureNl (blk : Text) : Text :=
  if blk.getLast? == some '\n' then blk else blk ++ ['\n']

def bodyBlocksOf (base ours theirs : Text) (choices : Nat → Option Text) : List Text :=
  (presentListOf base ours theirs choices).filterMap fun k =>
    (outcomeOf base ours theirs choices k).map ensureNl

structure Report where
  added : List Nat
  removed : List Nat
  changed_single_side : List Nat
  changed_both_sides : List Nat
  total_after_merge : Nat
  deriving DecidableEq, Repr

def reportOf (base ours theirs : Text) (choices : Nat → Option Text) : Report :=
  { added := addedListOf base ours theirs choices
    removed := removedListOf base ours theirs choices
    changed_single_side := singleListOf base ours theirs choices
    changed_both_sides := bothListOf base ours theirs choices
    total_after_merge := (presentListOf base ours theirs choices).length }

/-- `merge_three`: merged text plus change report. -/
def merge_three (base ours theirs : Text) (choices : Nat → Option Text) :
    Text × Report :=
  (finalHeaderOf base ours theirs choices ++ joinL (bodyBlocksOf base ours theirs choices),
    reportOf base ours theirs choices)

-- ----- line-shape infrastructure for reasoning about splitlines round trips

/-- No line-break character occurs in `l`. -/
def noBreak (l : Text) : Bool := l.all fun c => !isBreakChar c

/-- `l` is one properly terminated line: break-free content followed by a
single terminator (CRLF counting as one). -/
def properLine : Text → Bool
  | [] => false
  | [c] => isBreakChar c
  | c :: c2 :: rest =>
    if c == '\r' && c2 == '\n' && rest.isEmpty then true
    else !isBreakChar c && properLine (c2 :: rest)

/-- Nonempty and break-free: the shape of an unterminated final line. -/
def noBreakNe (l : Text) : Bool := !l.isEmpty && noBreak l

def properLast (l : Text) : Bool := properLine l || noBreakNe l

/-- A CR-terminated line may not be followed by an LF-headed one, or the two
would re-join as a CRLF terminator. -/
def chainPair (l l2 : Text) : Bool := !(l.getLast? == some '\r' && l2.head? == some '\n')

def headOK (l : Text) : List Text → Bool
  | [] => properLast l
  | l2 :: _ => properLine l && chainPair l l2

/-- The line lists `splitlines` can produce and `joinL` faithfully re-splits. -/
def chainOK : List Text → Bool
  | [] => true
  | l :: ls => headOK l ls && chainOK ls

-- ----- concrete documents for the spec's scenarios

/-- No choices supplied (empty ChoiceMap). -/
def noChoice : Nat → Option Text := fun _ => none

def scenAbase : Text :=
  String.toList "name: demo\nnum_glyphs: 2\nglyphs:\n\t1:\n\t\tpixels: 0 0\n\t2:\n\t\tpixels: 1 0\n"

def scenAours : Text := scenAbase ++ String.toList "\t3:\n\t\tpixels: 1 1\n"

def scenBbase : Text := String.toList "num_glyphs: 1\nglyphs:\n\t5:\n\t\tpixels: 0 0\n"

def scenBours : Text := String.toList "num_glyphs: 1\nglyphs:\n\t5:\n\t\tpixels: 1 1\n"

def scenBtheirs : Text := String.toList "num_glyphs: 1\nglyphs:\n\t5:\n\t\tpixels: 2 2\n"

/-- The record key 5 carries in ours (the "Y" record). -/
def yBlk : Text := String.toList "\t5:\n\t\tpixels: 1 1\n"

/-- The record key 5 carries in theirs (the "Z" record). -/
def zBlk : Text := String.toList "\t5:\n\t\tpixels: 2 2\n"

/-- ChoiceMap of the spec's scenario C. -/
def choiceC : Nat → Option Text := fun k => if k == 5 then some (String.toList "ours") else none

/-- A token that is none of the five literal strings before normalization. -/
def choiceUpper : Nat → Option Text :=
  fun k => if k == 5 then some (String.toList " OURS ") else none

/-- An entry whose token is whitespace only, normalizing to the empty string. -/
def choiceBlank : Nat → Option Text :=
  fun k => if k == 5 then some (String.toList " ") else none

def scenEbase : Text := String.toList "glyphs:\n\t9:\n\t\tpixels: 3 3\n"

def scenEours : Text := String.toList "glyphs:\n"

/-- ChoiceMap of the spec's scenario E. -/
def choiceE : Nat → Option Text := fun k => if k == 9 then some (String.toList "keep") else none

def c9base : Text := String.toList "glyphs:\n"

def c9side : Text := String.toList "glyphs:\n\t4:\n\t\tpixels: 5 5\n"

/-- A revision whose record interior carries a CRLF line terminator. -/
def c5ours : Text := String.toList "glyphs:\n\t1:\r\n\t\tpixels: 0 0\n"

/-- The record set a revision presents before EOL normalization. -/
def rawRecordsOf (x : Text) : List (Nat × Text) :=
  (parse_glyph_blocks (split_header_and_body x).2).2

-- ----- helper lemmas

theorem getBlk_aux (m : List (Nat × Text)) (k : Nat) (v : Text) :
    ∀ acc : Option Text,
      m.foldl (fun acc e => if e.1 == k then some e.2 else acc) acc = some v →
      (k, v) ∈ m ∨ acc = some v := by
  induction m with
  | nil => intro acc h; exact Or.inr h
  | cons e m ih =>
    intro acc h
    rw [List.foldl_cons] at h
    rcases ih _ h with h' | h'
    · exact Or.inl (List.mem_cons_of_mem _ h')
    · by_cases hk : e.1 = k
      · rw [if_pos (by simpa using hk)] at h'
        have he := Option.some.inj h'
        left
        have : e = (k, v) := by cases e; simp_all
        rw [this]
        exact List.mem_cons_self _ _
      · rw [if_neg (by simpa using hk)] at h'
        exact Or.inr h'

theorem getBlk_eq_some_mem {m : List (Nat × Text)} {k : Nat} {v : Text}
    (h : getBlk m k = some v) : (k, v) ∈ m := by
  rcases getBlk_aux m k v none h with h' | h'
  · exact h'
  · cases h'

theorem getBlk_mem_keys {m : List (Nat × Text)} {k : Nat} {v : Text}
    (h : getBlk m k = some v) : k ∈ keysOf m := by
  have := getBlk_eq_some_mem h
  exact List.mem_map.2 ⟨(k, v), this, rfl⟩

theorem mem_insertKey (a k : Nat) (l : List Nat) :
    a ∈ insertKey k l ↔ a = k ∨ a ∈ l := by
  induction l with
  | nil => simp [insertKey]
  | cons x xs ih =>
    by_cases h1 : k < x
    · simp [insertKey, h1]
    · by_cases h2 : k = x
      · subst h2; simp [insertKey, h1]
      · have h2' : (k == x) = false := by simp [h2]
        simp only [insertKey, if_neg h1, h2', Bool.false_eq_true, if_false, List.mem_cons, ih]
        tauto

theorem mem_sortedUnion (a : Nat) (l : List Nat) : a ∈ sortedUnion l ↔ a ∈ l := by
  induction l with
  | nil => simp [sortedUnion]
  | cons x xs ih =>
    simp only [sortedUnion, List.foldr_cons] at *
    rw [mem_insertKey, ih, List.mem_cons]

theorem changed_block_isSome {bb ss : Option Text}
    (h : changed_block bb ss = true) : bb.isSome ∨ ss.isSome := by
  cases bb <;> cases ss <;> simp_all [changed_block]

theorem mem_allKeysOf_left {base ours theirs : Text} {k : Nat}
    (h : k ∈ keysOf (recordsOf base)) : k ∈ allKeysOf base ours theirs := by
  rw [allKeysOf, mem_sortedUnion]
  simp [h]

theorem mem_allKeysOf_mid {base ours theirs : Text} {k : Nat}
    (h : k ∈ keysOf (recordsOf ours)) : k ∈ allKeysOf base ours theirs := by
  rw [allKeysOf, mem_sortedUnion]
  simp [h]

theorem mem_allKeysOf_right {base ours theirs : Text} {k : Nat}
    (h : k ∈ keysOf (recordsOf theirs)) : k ∈ allKeysOf base ours theirs := by
  rw [allKeysOf, mem_sortedUnion]
  simp [h]

theorem mem_allKeysOf_of_changed_ours {base ours theirs : Text} {k : Nat}
    (h : changed_block (getBlk (recordsOf base) k) (getBlk (recordsOf ours) k) = true) :
    k ∈ allKeysOf base ours theirs := by
  rcases changed_block_isSome h with h' | h'
  · cases hb : getBlk (recordsOf base) k with
    | none => rw [hb] at h'; cases h'
    | some v => exact mem_allKeysOf_left (getBlk_mem_keys hb)
  · cases ho : getBlk (recordsOf ours) k with
    | none => rw [ho] at h'; cases h'
    | some v => exact mem_allKeysOf_mid (getBlk_mem_keys ho)

theorem mem_allKeysOf_of_changed_theirs {base ours theirs : Text} {k : Nat}
    (h : changed_block (getBlk (recordsOf base) k) (getBlk (recordsOf theirs) k) = true) :
    k ∈ allKeysOf base ours theirs := by
  rcases changed_block_isSome h with h' | h'
  · cases hb : getBlk (recordsOf base) k with
    | none => rw [hb] at h'; cases h'
    | some v => exact mem_allKeysOf_left (getBlk_mem_keys hb)
  · cases ht : getBlk (recordsOf theirs) k with
    | none => rw [ht] at h'; cases h'
    | some v => exact mem_allKeysOf_right (getBlk_mem_keys ht)

theorem normalize_eol_ne_nil {x : Text} (h : x ≠ []) : normalize_eol x ≠ [] := by
  cases x with
  | nil => exact absurd rfl h
  | cons c r =>
    cases r with
    | nil =>
      by_cases hc : c = '\r' <;> simp [normalize_eol, hc]
    | cons c2 r2 =>
      by_cases hc : c = '\r'
      · subst hc
        by_cases h2 : c2 = '\n' <;> simp [normalize_eol, h2]
      · simp [normalize_eol, hc]

theorem matchAnchorAt_pos {t : Text} {i e : Nat} (h : matchAnchorAt t i = some e) :
    1 ≤ e := by
  rw [matchAnchorAt] at h
  split at h
  · rw [Option.map_eq_some'] at h
    obtain ⟨k, _, hk⟩ := h
    omega
  · cases h

theorem findAnchorAux_pos {t : Text} :
    ∀ {fuel i e : Nat}, findAnchorAux t fuel i = some e → 1 ≤ e := by
  intro fuel
  induction fuel with
  | zero => intro i e h; cases h
  | succ fuel ih =>
    intro i e h
    rw [findAnchorAux] at h
    split at h
    · cases hm : matchAnchorAt t i with
      | some e' => rw [hm] at h; exact Option.some.inj h ▸ matchAnchorAt_pos hm
      | none => rw [hm] at h; exact ih h
    · exact ih h

theorem headerOf_eq_nil_iff {x : Text} : headerOf x = [] ↔ x = [] := by
  constructor
  · intro h
    by_contra hx
    have hn := normalize_eol_ne_nil hx
    rw [headerOf, split_header_and_body] at h
    cases hf : findAnchor (normalize_eol x) with
    | none => rw [hf] at h; exact hn h
    | some e =>
      rw [hf] at h
      simp only at h
      have he : 1 ≤ e := findAnchorAux_pos hf
      rcases List.take_eq_nil_iff.1 h with h' | h'
      · omega
      · exact hn h'
  · intro h; subst h; decide

/-- C10: the header of the merged document, before the counter is rewritten,
is ours's header when ours is non-empty, else theirs's header when theirs is
non-empty, else base's header. -/
theorem c10_header_source (base ours theirs : Text) :
    (ours ≠ [] → headerPick base ours theirs = headerOf ours) ∧
    (ours = [] → theirs ≠ [] → headerPick base ours theirs = headerOf theirs) ∧
    (ours = [] → theirs = [] → headerPick base ours theirs = headerOf base) := by
  refine ⟨?_, ?_, ?_⟩
  · intro h
    rw [headerPick, if_pos (fun hh => h (headerOf_eq_nil_iff.1 hh))]
  · intro ho ht
    rw [headerPick, if_neg (by simp [headerOf_eq_nil_iff.2 ho]),
      if_pos (fun hh => ht (headerOf_eq_nil_iff.1 hh))]
  · intro ho ht
    rw [headerPick, if_neg (by simp [headerOf_eq_nil_iff.2 ho]),
      if_neg (by simp [headerOf_eq_nil_iff.2 ht])]

theorem c10_header_source_witness :
    scenBours ≠ [] ∧ headerPick scenBbase scenBours scenBtheirs = headerOf scenBours :=
  ⟨by decide, (c10_header_source scenBbase scenBours scenBtheirs).1 (by decide)⟩

theorem outcome_both {base ours theirs : Text} {choices : Nat → Option Text} {k : Nat}
    (h1 : changed_block (getBlk (recordsOf base) k) (getBlk (recordsOf ours) k) = true)
    (h2 : changed_block (getBlk (recordsOf base) k) (getBlk (recordsOf theirs) k) = true) :
    outcomeOf base ours theirs choices k =
      if (choiceTok choices k).isEmpty then getBlk (recordsOf theirs) k
      else
        pick_from_choice (getBlk (recordsOf base) k) (getBlk (recordsOf ours) k)
          (getBlk (recordsOf theirs) k) (choiceTok choices k) := by
  rw [outcomeOf, mergeOutcomeAt]
  simp [h1, h2]

theorem outcome_single_ours {base ours theirs : Text} {choices : Nat → Option Text} {k : Nat}
    (h1 : changed_block (getBlk (recordsOf base) k) (getBlk (recordsOf ours) k) = true)
    (h2 : changed_block (getBlk (recordsOf base) k) (getBlk (recordsOf theirs) k) = false) :
    outcomeOf base ours theirs choices k = getBlk (recordsOf ours) k := by
  rw [outcomeOf, mergeOutcomeAt]
  simp [h1, h2]

theorem outcome_single_theirs {base ours theirs : Text} {choices : Nat → Option Text} {k : Nat}
    (h1 : changed_block (getBlk (recordsOf base) k) (getBlk (recordsOf ours) k) = false)
    (h2 : changed_block (getBlk (recordsOf base) k) (getBlk (recordsOf theirs) k) = true) :
    outcomeOf base ours theirs choices k = getBlk (recordsOf theirs) k := by
  rw [outcomeOf, mergeOutcomeAt]
  simp [h1, h2]

theorem isEmpty_false_of_ne_nil {l : Text} (h : l ≠ []) : l.isEmpty = false := by
  cases l with
  | nil => exact absurd rfl h
  | cons a l => rfl

/-- C1 amended: at a key where ours and theirs both differ from base, a
ChoiceMap entry whose token is nonempty after strip/lowercase normalization
determines the outcome through `pick_from_choice`; otherwise — no entry, or
an entry whose token normalizes to the empty string — the outcome is theirs's
record and the key is recorded in `changed_both_sides`.  In particular for
scenario B (base X, ours Y, theirs Z, no choice) the merged record is Z and
`changed_both_sides = [5]`, and for scenario C (choice `5: ours`) the merged
record is Y. -/
theorem c1_conflict_policy :
    (∀ (base ours theirs : Text) (choices : Nat → Option Text) (k : Nat),
      changed_block (getBlk (recordsOf base) k) (getBlk (recordsOf ours) k) = true →
      changed_block (getBlk (recordsOf base) k) (getBlk (recordsOf theirs) k) = true →
      (choices k = none →
        outcomeOf base ours theirs choices k = getBlk (recordsOf theirs) k ∧
        k ∈ bothListOf base ours theirs choices) ∧
      (∀ v, choices k = some v → normTok v ≠ [] →
        outcomeOf base ours theirs choices k =
          pick_from_choice (getBlk (recordsOf base) k) (getBlk (recordsOf ours) k)
            (getBlk (recordsOf theirs) k) (normTok v)) ∧
      (∀ v, choices k = some v → normTok v = [] →
        outcomeOf base ours theirs choices k = getBlk (recordsOf theirs) k ∧
        k ∈ bothListOf base ours theirs choices)) ∧
    outcomeOf scenBbase scenBours scenBtheirs noChoice 5 = some zBlk ∧
    (merge_three scenBbase scenBours scenBtheirs noChoice).2.changed_both_sides = [5] ∧
    (merge_three scenBbase scenBours scenBtheirs noChoice).1 =
      String.toList "num_glyphs: 1\nglyphs:\n\t5:\n\t\tpixels: 2 2\n" ∧
    outcomeOf scenBbase scenBours scenBtheirs choiceC 5 = some yBlk ∧
    (merge_three scenBbase scenBours scenBtheirs choiceC).1 =
      String.toList "num_glyphs: 1\nglyphs:\n\t5:\n\t\tpixels: 1 1\n" := by
  refine ⟨?_, by decide, by decide, by decide, by decide, by decide⟩
  intro base ours theirs choices k h1 h2
  refine ⟨?_, ?_, ?_⟩
  · intro hnone
    have ht : choiceTok choices k = [] := by simp [choiceTok, hnone]
    constructor
    · rw [outcome_both h1 h2, ht]
      rfl
    · rw [bothListOf, List.mem_filter]
      exact ⟨mem_allKeysOf_of_changed_ours h1, by simp [bothPred, h1, h2, ht]⟩
  · intro v hv hne
    have ht : choiceTok choices k = normTok v := by simp [choiceTok, hv]
    rw [outcome_both h1 h2, ht, if_neg (by simp [isEmpty_false_of_ne_nil hne])]
  · intro v hv hempty
    have ht : choiceTok choices k = [] := by simp [choiceTok, hv, hempty]
    constructor
    · rw [outcome_both h1 h2, ht]
      rfl
    · rw [bothListOf, List.mem_filter]
      exact ⟨mem_allKeysOf_of_changed_ours h1, by simp [bothPred, h1, h2, ht]⟩

/-- C1 counterexample: at the both-sides conflict of scenario B, an entry
`5: " "` exists in the ChoiceMap, yet its token does not determine the
outcome — the whitespace-only token strips to the empty string, the code
takes the no-entry default (theirs's record Z survives, not the forced
absence a non-recognized token selects) and records key 5 in
`changed_both_sides`, which the claim reserves for keys without an entry. -/
theorem c1_conflict_policy_counterexample :
    choiceBlank 5 = some (String.toList " ") ∧
    changed_block (getBlk (recordsOf scenBbase) 5) (getBlk (recordsOf scenBours) 5) = true ∧
    changed_block (getBlk (recordsOf scenBbase) 5) (getBlk (recordsOf scenBtheirs) 5) = true ∧
    outcomeOf scenBbase scenBours scenBtheirs choiceBlank 5 = some zBlk ∧
    5 ∈ (merge_three scenBbase scenBours scenBtheirs choiceBlank).2.changed_both_sides := by
  decide

theorem c1_conflict_policy_witness :
    outcomeOf scenBbase scenBours scenBtheirs noChoice 5 = getBlk (recordsOf scenBtheirs) 5 ∧
    5 ∈ bothListOf scenBbase scenBours scenBtheirs noChoice :=
  (c1_conflict_policy.1 scenBbase scenBours scenBtheirs noChoice 5
    (by decide) (by decide)).1 rfl

/-- C2 counterexample: with base X / ours Y / theirs Z at key 5 and the
ChoiceMap `5: ours`, both sides differ from base yet key 5 is reported in
neither `changed_single_side` nor `changed_both_sides`, contradicting the
claim that no key whose ours or theirs record differs from base is in
neither list. -/
theorem c2_partition_counterexample :
    changed_block (getBlk (recordsOf scenBbase) 5) (getBlk (recordsOf scenBours) 5) = true ∧
    changed_block (getBlk (recordsOf scenBbase) 5) (getBlk (recordsOf scenBtheirs) 5) = true ∧
    5 ∉ (merge_three scenBbase scenBours scenBtheirs choiceC).2.changed_single_side ∧
    5 ∉ (merge_three scenBbase scenBours scenBtheirs choiceC).2.changed_both_sides := by
  decide

/-- C2 amended: the two emitted lists are always mutually exclusive, a key
unchanged on both sides is in neither, and a key whose ours or theirs record
differs from base is in neither list exactly when both sides changed and a
ChoiceMap entry with a nonempty normalized token exists for it — both
directions: in-neither implies a chosen both-sides conflict, and every chosen
both-sides conflict is reported in neither list. -/
theorem c2_partition (base ours theirs : Text) (choices : Nat → Option Text) :
    (∀ k, ¬(k ∈ singleListOf base ours theirs choices ∧
            k ∈ bothListOf base ours theirs choices)) ∧
    (∀ k, changed_block (getBlk (recordsOf base) k) (getBlk (recordsOf ours) k) = false →
      changed_block (getBlk (recordsOf base) k) (getBlk (recordsOf theirs) k) = false →
      k ∉ singleListOf base ours theirs choices ∧
      k ∉ bothListOf base ours theirs choices) ∧
    (∀ k, k ∈ allKeysOf base ours theirs →
      (changed_block (getBlk (recordsOf base) k) (getBlk (recordsOf ours) k) = true ∨
       changed_block (getBlk (recordsOf base) k) (getBlk (recordsOf theirs) k) = true) →
      k ∉ singleListOf base ours theirs choices →
      k ∉ bothListOf base ours theirs choices →
      changed_block (getBlk (recordsOf base) k) (getBlk (recordsOf ours) k) = true ∧
      changed_block (getBlk (recordsOf base) k) (getBlk (recordsOf theirs) k) = true ∧
      (choiceTok choices k).isEmpty = false) ∧
    (∀ k, changed_block (getBlk (recordsOf base) k) (getBlk (recordsOf ours) k) = true →
      changed_block (getBlk (recordsOf base) k) (getBlk (recordsOf theirs) k) = true →
      (choiceTok choices k).isEmpty = false →
      k ∉ singleListOf base ours theirs choices ∧
      k ∉ bothListOf base ours theirs choices) := by
  refine ⟨?_, ?_, ?_, ?_⟩
  · rintro k ⟨hs, hb⟩
    rw [singleListOf, List.mem_filter] at hs
    rw [bothListOf, List.mem_filter] at hb
    have h1 := hs.2
    have h2 := hb.2
    rw [singlePred] at h1
    simp only [bothPred, Bool.and_eq_true] at h2
    obtain ⟨⟨ho, ht⟩, _⟩ := h2
    rw [ho, ht] at h1
    simp at h1
  · intro k ho ht
    constructor
    · rw [singleListOf, List.mem_filter]
      rintro ⟨_, hp⟩
      rw [singlePred, ho, ht] at hp
      simp at hp
    · rw [bothListOf, List.mem_filter]
      rintro ⟨_, hp⟩
      rw [bothPred, ho] at hp
      simp at hp
  · intro k hk hch hs hb
    rw [singleListOf, List.mem_filter] at hs
    rw [bothListOf, List.mem_filter] at hb
    push_neg at hs hb
    have hsp := hs hk
    have hbp := hb hk
    rw [singlePred] at hsp
    rw [bothPred] at hbp
    cases ho : changed_block (getBlk (recordsOf base) k) (getBlk (recordsOf ours) k) with
    | false =>
      cases ht : changed_block (getBlk (recordsOf base) k) (getBlk (recordsOf theirs) k) with
      | false => rcases hch with h | h
                 · rw [ho] at h; cases h
                 · rw [ht] at h; cases h
      | true => rw [ho, ht] at hsp; simp at hsp
    | true =>
      cases ht : changed_block (getBlk (recordsOf base) k) (getBlk (recordsOf theirs) k) with
      | false => rw [ho, ht] at hsp; simp at hsp
      | true =>
        refine ⟨rfl, rfl, ?_⟩
        rw [ho, ht] at hbp
        simp at hbp
        exact isEmpty_false_of_ne_nil hbp
  · intro k ho ht htok
    constructor
    · rw [singleListOf, List.mem_filter]
      rintro ⟨_, hp⟩
      rw [singlePred, ho, ht] at hp
      simp at hp
    · rw [bothListOf, List.mem_filter]
      rintro ⟨_, hp⟩
      rw [bothPred, ho, ht, htok] at hp
      simp at hp

theorem c2_partition_witness :
    (changed_block (getBlk (recordsOf scenBbase) 5) (getBlk (recordsOf scenBours) 5) = true ∧
     changed_block (getBlk (recordsOf scenBbase) 5) (getBlk (recordsOf scenBtheirs) 5) = true ∧
     (choiceTok choiceC 5).isEmpty = false) ∧
    5 ∉ singleListOf scenBbase scenBours scenBtheirs choiceC ∧
    5 ∉ bothListOf scenBbase scenBours scenBtheirs choiceC :=
  ⟨(c2_partition scenBbase scenBours scenBtheirs choiceC).2.2.1 5
      (by decide) (Or.inl (by decide)) (by decide) (by decide),
    (c2_partition scenBbase scenBours scenBtheirs choiceC).2.2.2 5
      (by decide) (by decide) (by decide)⟩

/-- C4 counterexample: at the both-sides conflict of scenario B, the token
`" OURS "` is none of the five literal strings `ours`, `theirs`, `base`,
`keep`, `drop`, yet the outcome is ours's record Y (present), not the forced
absence the claim prescribes for every other token string: tokens are
normalized by strip and lowercase before the comparison. -/
theorem c4_token_counterexample :
    String.toList " OURS " ∉
      [String.toList "ours", String.toList "theirs", String.toList "base",
        String.toList "keep", String.toList "drop"] ∧
    changed_block (getBlk (recordsOf scenBbase) 5) (getBlk (recordsOf scenBours) 5) = true ∧
    changed_block (getBlk (recordsOf scenBbase) 5) (getBlk (recordsOf scenBtheirs) 5) = true ∧
    choiceUpper 5 = some (String.toList " OURS ") ∧
    outcomeOf scenBbase scenBours scenBtheirs choiceUpper 5 = some yBlk := by
  decide

/-- C4 amended: for a true both-sides conflict carrying a ChoiceMap entry,
the entry's token is compared after whitespace stripping and lowercasing;
the five recognized normalized tokens select as specified, every other
nonempty normalized token forces absence, and a token that normalizes to the
empty string behaves as if no entry were present (default theirs, recorded as
a both-sides conflict).  No token value causes a failure: the outcome is
total. -/
theorem c4_token_semantics (base ours theirs : Text) (choices : Nat → Option Text)
    (k : Nat) (v : Text)
    (h1 : changed_block (getBlk (recordsOf base) k) (getBlk (recordsOf ours) k) = true)
    (h2 : changed_block (getBlk (recordsOf base) k) (getBlk (recordsOf theirs) k) = true)
    (hv : choices k = some v) :
    (normTok v = String.toList "ours" →
      outcomeOf base ours theirs choices k = getBlk (recordsOf ours) k) ∧
    (normTok v = String.toList "theirs" →
      outcomeOf base ours theirs choices k = getBlk (recordsOf theirs) k) ∧
    (normTok v = String.toList "base" →
      outcomeOf base ours theirs choices k = getBlk (recordsOf base) k) ∧
    (normTok v = String.toList "keep" →
      outcomeOf base ours theirs choices k =
        (if (getBlk (recordsOf ours) k).isSome then getBlk (recordsOf ours) k
         else if (getBlk (recordsOf theirs) k).isSome then getBlk (recordsOf theirs) k
         else getBlk (recordsOf base) k)) ∧
    (normTok v = String.toList "drop" →
      outcomeOf base ours theirs choices k = none) ∧
    (normTok v ∉
        [String.toList "ours", String.toList "theirs", String.toList "base",
          String.toList "keep", String.toList "drop"] →
      normTok v ≠ [] → outcomeOf base ours theirs choices k = none) ∧
    (normTok v = [] →
      outcomeOf base ours theirs choices k = getBlk (recordsOf theirs) k ∧
      k ∈ bothListOf base ours theirs choices) := by
  have ht : choiceTok choices k = normTok v := by simp [choiceTok, hv]
  have hout := @outcome_both base ours theirs choices k h1 h2
  rw [ht] at hout
  refine ⟨?_, ?_, ?_, ?_, ?_, ?_, ?_⟩
  · intro h
    rw [hout, if_neg (by simp [h]), h, pick_from_choice, if_pos rfl]
  · intro h
    rw [hout, if_neg (by simp [h]), h, pick_from_choice]
    rw [if_neg (by decide), if_pos rfl]
  · intro h
    rw [hout, if_neg (by simp [h]), h, pick_from_choice]
    rw [if_neg (by decide), if_neg (by decide), if_pos rfl]
  · intro h
    rw [hout, if_neg (by simp [h]), h, pick_from_choice]
    rw [if_neg (by decide), if_neg (by decide), if_neg (by decide), if_pos rfl]
  · intro h
    rw [hout, if_neg (by simp [h]), h, pick_from_choice]
    rw [if_neg (by decide), if_neg (by decide), if_neg (by decide), if_neg (by decide),
      if_pos rfl]
  · intro hmem hne
    simp only [List.mem_cons, List.mem_singleton] at hmem
    push_neg at hmem
    obtain ⟨n1, n2, n3, n4, n5⟩ := hmem
    rw [hout, if_neg (by simp [isEmpty_false_of_ne_nil hne]), pick_from_choice]
    rw [if_neg n1, if_neg n2, if_neg n3, if_neg n4, if_neg n5.1]
  · intro h
    constructor
    · rw [hout, if_pos (by simp [h])]
    · rw [bothListOf, List.mem_filter]
      refine ⟨mem_allKeysOf_of_changed_ours h1, ?_⟩
      simp [bothPred, h1, h2, ht, h]

theorem c4_token_semantics_witness :
    changed_block (getBlk (recordsOf scenBbase) 5) (getBlk (recordsOf scenBours) 5) = true ∧
    choiceC 5 = some (String.toList "ours") ∧
    outcomeOf scenBbase scenBours scenBtheirs choiceC 5 = getBlk (recordsOf scenBours) 5 :=
  ⟨by decide, by decide,
    (c4_token_semantics scenBbase scenBours scenBtheirs choiceC 5
      (String.toList "ours") (by decide) (by decide) (by decide)).1 (by decide)⟩

/-- C8: where exactly one side differs from base, the outcome is that side's
record, independently of the ChoiceMap (the entry is never consulted), and
the key is recorded as a single-side change.  In particular in scenario E
(base has 9, ours deletes it, theirs unchanged, choice `9: keep`) the outcome
for key 9 is deletion. -/
theorem c8_single_side_rule :
    (∀ (base ours theirs : Text) (choices choices' : Nat → Option Text) (k : Nat),
      changed_block (getBlk (recordsOf base) k) (getBlk (recordsOf ours) k) = true →
      changed_block (getBlk (recordsOf base) k) (getBlk (recordsOf theirs) k) = false →
      outcomeOf base ours theirs choices k = getBlk (recordsOf ours) k ∧
      outcomeOf base ours theirs choices k = outcomeOf base ours theirs choices' k ∧
      k ∈ singleListOf base ours theirs choices) ∧
    (∀ (base ours theirs : Text) (choices choices' : Nat → Option Text) (k : Nat),
      changed_block (getBlk (recordsOf base) k) (getBlk (recordsOf ours) k) = false →
      changed_block (getBlk (recordsOf base) k) (getBlk (recordsOf theirs) k) = true →
      outcomeOf base ours theirs choices k = getBlk (recordsOf theirs) k ∧
      outcomeOf base ours theirs choices k = outcomeOf base ours theirs choices' k ∧
      k ∈ singleListOf base ours theirs choices) ∧
    outcomeOf scenEbase scenEours scenEbase choiceE 9 = none ∧
    (merge_three scenEbase scenEours scenEbase choiceE).2.removed = [9] ∧
    (merge_three scenEbase scenEours scenEbase choiceE).2.changed_single_side = [9] := by
  refine ⟨?_, ?_, by decide, by decide, by decide⟩
  · intro base ours theirs choices choices' k h1 h2
    refine ⟨outcome_single_ours h1 h2, ?_, ?_⟩
    · rw [outcome_single_ours h1 h2, outcome_single_ours h1 h2]
    · rw [singleListOf, List.mem_filter]
      exact ⟨mem_allKeysOf_of_changed_ours h1, by simp [singlePred, h1, h2]⟩
  · intro base ours theirs choices choices' k h1 h2
    refine ⟨outcome_single_theirs h1 h2, ?_, ?_⟩
    · rw [outcome_single_theirs h1 h2, outcome_single_theirs h1 h2]
    · rw [singleListOf, List.mem_filter]
      exact ⟨mem_allKeysOf_of_changed_theirs h2, by simp [singlePred, h1, h2]⟩

theorem c8_single_side_rule_witness :
    outcomeOf scenEbase scenEours scenEbase choiceE 9 = getBlk (recordsOf scenEours) 9 ∧
    outcomeOf scenEbase scenEours scenEbase choiceE 9 =
      outcomeOf scenEbase scenEours scenEbase noChoice 9 ∧
    9 ∈ singleListOf scenEbase scenEours scenEbase choiceE :=
  c8_single_side_rule.1 scenEbase scenEours scenEbase choiceE noChoice 9
    (by decide) (by decide)

/-- C9 counterexample: with key 4 absent from base and identically present in
ours and theirs (empty ChoiceMap), the record is kept, but the key is
reported both in `added` and in `changed_both_sides` — not classified as
unchanged as the claim states. -/
theorem c9_identical_introduction_counterexample :
    getBlk (recordsOf c9base) 4 = none ∧
    getBlk (recordsOf c9side) 4 = some (String.toList "\t4:\n\t\tpixels: 5 5\n") ∧
    outcomeOf c9base c9side c9side noChoice 4 = some (String.toList "\t4:\n\t\tpixels: 5 5\n") ∧
    (merge_three c9base c9side c9side noChoice).2.added = [4] ∧
    (merge_three c9base c9side c9side noChoice).2.changed_both_sides = [4] := by
  decide

/-- C9 amended: a key absent from base and present with identical (nonempty)
content in ours and theirs, with no choice entry, keeps its record, but it
counts as changed on both sides: it is recorded in `changed_both_sides` and,
being present in the merge while absent from base, also in `added`; it is not
a single-side change. -/
theorem c9_identical_introduction (base ours theirs : Text)
    (choices : Nat → Option Text) (k : Nat) (blk : Text)
    (hblk : blk ≠ [])
    (hb : getBlk (recordsOf base) k = none)
    (ho : getBlk (recordsOf ours) k = some blk)
    (ht : getBlk (recordsOf theirs) k = some blk)
    (hc : choices k = none) :
    outcomeOf base ours theirs choices k = some blk ∧
    k ∈ bothListOf base ours theirs choices ∧
    k ∈ addedListOf base ours theirs choices ∧
    k ∉ singleListOf base ours theirs choices := by
  have h1 : changed_block (getBlk (recordsOf base) k) (getBlk (recordsOf ours) k) = true := by
    rw [hb, ho]
    simp [changed_block, Ne.symm hblk]
  have h2 : changed_block (getBlk (recordsOf base) k) (getBlk (recordsOf theirs) k) = true := by
    rw [hb, ht]
    simp [changed_block, Ne.symm hblk]
  have htok : choiceTok choices k = [] := by simp [choiceTok, hc]
  have hout : outcomeOf base ours theirs choices k = some blk := by
    rw [outcome_both h1 h2, if_pos (by simp [htok]), ht]
  refine ⟨hout, ?_, ?_, ?_⟩
  · rw [bothListOf, List.mem_filter]
    exact ⟨mem_allKeysOf_of_changed_ours h1, by simp [bothPred, h1, h2, htok]⟩
  · rw [addedListOf, List.mem_filter]
    refine ⟨mem_allKeysOf_of_changed_ours h1, ?_⟩
    rw [hout, hb]
    rfl
  · rw [singleListOf, List.mem_filter]
    rintro ⟨_, hp⟩
    rw [singlePred, h1, h2] at hp
    simp at hp

theorem c9_identical_introduction_witness :
    outcomeOf c9base c9side c9side noChoice 4 = some (String.toList "\t4:\n\t\tpixels: 5 5\n") ∧
    4 ∈ bothListOf c9base c9side c9side noChoice ∧
    4 ∈ addedListOf c9base c9side c9side noChoice ∧
    4 ∉ singleListOf c9base c9side c9side noChoice :=
  c9_identical_introduction c9base c9side c9side noChoice 4
    (String.toList "\t4:\n\t\tpixels: 5 5\n")
    (by decide) (by decide) (by decide) (by decide) rfl

/-- C3 counterexample: in scenario A (ours adds record 3), the merge reports
`changed_single_side = [3]`, not the empty list the claim asserts — an
addition by one side is also recorded as a single-side change. -/
theorem c3_scenario_a_counterexample :
    (merge_three scenAbase scenAours scenAbase noChoice).2.changed_single_side = [3] ∧
    (merge_three scenAbase scenAours scenAbase noChoice).2.changed_single_side ≠ [] := by
  decide

/-- C3 amended: in scenario A the merged document contains exactly records
1, 2, 3, the report has `added = [3]`, `removed` and `changed_both_sides`
empty, `changed_single_side = [3]`, and the header counter equals 3. -/
theorem c3_scenario_a :
    (merge_three scenAbase scenAours scenAbase noChoice).1 =
      String.toList
        "name: demo\nnum_glyphs: 3\nglyphs:\n\t1:\n\t\tpixels: 0 0\n\t2:\n\t\tpixels: 1 0\n\t3:\n\t\tpixels: 1 1\n" ∧
    presentListOf scenAbase scenAours scenAbase noChoice = [1, 2, 3] ∧
    (merge_three scenAbase scenAours scenAbase noChoice).2 =
      { added := [3], removed := [], changed_single_side := [3], changed_both_sides := [],
        total_after_merge := 3 } ∧
    extractNumVal (finalHeaderOf scenAbase scenAours scenAbase noChoice) = some 3 := by
  decide

theorem pick_from_choice_cases {bb oo tt : Option Text} {choice : Text} {v : Text}
    (h : pick_from_choice bb oo tt choice = some v) :
    bb = some v ∨ oo = some v ∨ tt = some v := by
  rw [pick_from_choice] at h
  split at h
  · exact Or.inr (Or.inl h)
  · split at h
    · exact Or.inr (Or.inr h)
    · split at h
      · exact Or.inl h
      · split at h
        · split at h
          · exact Or.inr (Or.inl h)
          · split at h
            · exact Or.inr (Or.inr h)
            · exact Or.inl h
        · split at h
          · cases h
          · cases h

theorem mergeOutcomeAt_cases {b o t : List (Nat × Text)} {choiceFor : Nat → Text}
    {k : Nat} {v : Text} (h : mergeOutcomeAt b o t choiceFor k = some v) :
    getBlk b k = some v ∨ getBlk o k = some v ∨ getBlk t k = some v := by
  rw [mergeOutcomeAt] at h
  split at h
  · split at h
    · exact Or.inl h
    · split at h
      · exact Or.inr (Or.inl h)
      · exact Or.inr (Or.inr h)
  · split at h
    · split at h
      · exact Or.inr (Or.inr h)
      · exact pick_from_choice_cases h
    · split at h
      · exact Or.inr (Or.inl h)
      · exact Or.inr (Or.inr h)

theorem recordsOf_block_shape {x : Text} {k : Nat} {blk : Text}
    (h : getBlk (recordsOf x) k = some blk) :
    ∃ i j, blk = rstripNl (((bodyOf x).drop i).take j) ++ ['\n'] := by
  have hm := getBlk_eq_some_mem h
  simp only [recordsOf, parse_glyph_blocks] at hm
  rw [List.mem_filterMap] at hm
  obtain ⟨se, _, hmap⟩ := hm
  rw [Option.map_eq_some'] at hmap
  obtain ⟨kk, _, heq⟩ := hmap
  refine ⟨se.1, se.2 - se.1, ?_⟩
  exact (Prod.ext_iff.1 heq).2.symm

/-- C5 counterexample: a record whose interior carries a CRLF terminator is
rewritten by EOL normalization: the merged record for key 1 differs from the
record text of the raw revision it was taken from at an interior byte (the CR
after the key line), not merely in trailing-terminator normalization. -/
theorem c5_record_bytes_counterexample :
    outcomeOf [] c5ours [] noChoice 1 = some (String.toList "\t1:\n\t\tpixels: 0 0\n") ∧
    getBlk (rawRecordsOf c5ours) 1 = some (String.toList "\t1:\r\n\t\tpixels: 0 0\n") ∧
    rstripNl (String.toList "\t1:\n\t\tpixels: 0 0\n") ≠
      rstripNl (String.toList "\t1:\r\n\t\tpixels: 0 0\n") := by
  decide

/-- C5 amended: every present record of the MergeOutcome is byte-identical to
a contiguous chunk of the EOL-normalized text of one of the three revisions,
up to normalization of the trailing line terminators to exactly one LF;
interior bytes are not rewritten beyond the CRLF/CR → LF normalization the
merge applies to each whole input first. -/
theorem c5_record_provenance (base ours theirs : Text) (choices : Nat → Option Text)
    (k : Nat) (blk : Text)
    (h : outcomeOf base ours theirs choices k = some blk) :
    ∃ src, (src = base ∨ src = ours ∨ src = theirs) ∧
      ∃ i j, blk = rstripNl (((bodyOf src).drop i).take j) ++ ['\n'] := by
  rw [outcomeOf] at h
  rcases mergeOutcomeAt_cases h with h' | h' | h'
  · exact ⟨base, Or.inl rfl, recordsOf_block_shape h'⟩
  · exact ⟨ours, Or.inr (Or.inl rfl), recordsOf_block_shape h'⟩
  · exact ⟨theirs, Or.inr (Or.inr rfl), recordsOf_block_shape h'⟩

theorem c5_record_provenance_witness :
    outcomeOf [] c5ours [] noChoice 1 = some (String.toList "\t1:\n\t\tpixels: 0 0\n") ∧
    (∃ src, (src = ([] : Text) ∨ src = c5ours ∨ src = ([] : Text)) ∧
      ∃ i j,
        String.toList "\t1:\n\t\tpixels: 0 0\n" =
          rstripNl (((bodyOf src).drop i).take j) ++ ['\n']) :=
  ⟨by decide,
    c5_record_provenance [] c5ours [] noChoice 1 (String.toList "\t1:\n\t\tpixels: 0 0\n")
      (by decide)⟩

-- ----- digit and counter-line lemmas

theorem digitChar_isDigit (m : Nat) : (digitChar m).isDigit = true := by
  unfold digitChar
  split <;> decide

theorem digitChar_toNat {m : Nat} (h : m < 10) : (digitChar m).toNat = 48 + m := by
  interval_cases m <;> rfl

theorem isBreakChar_digitChar (m : Nat) : isBreakChar (digitChar m) = false := by
  unfold digitChar
  split <;> decide

theorem pySpace_digitChar (m : Nat) : pySpace (digitChar m) = false := by
  unfold digitChar
  split <;> decide

theorem natReprAux_all_digit :
    ∀ (fuel n : Nat) (c : Char), c ∈ natReprAux fuel n → c.isDigit = true := by
  intro fuel
  induction fuel with
  | zero => intro n c hc; cases hc
  | succ fuel ih =>
    intro n c hc
    rw [natReprAux] at hc
    split at hc
    · cases hc
    · rcases List.mem_append.1 hc with h | h
      · exact ih _ _ h
      · rw [List.mem_singleton] at h
        subst h
        exact digitChar_isDigit _

-- ----- splitlines round-trip lemmas

theorem joinL_splitlines (s : Text) : joinL (splitlines s) = s := by
  induction s using splitlines.induct with
  | case1 => rfl
  | case2 c => rfl
  | case3 c c2 rest h ih =>
    simp only [Bool.and_eq_true, beq_iff_eq] at h
    obtain ⟨rfl, rfl⟩ := h
    simp [splitlines, joinL, ih]
  | case4 c c2 rest h h2 ih =>
    rw [splitlines.eq_def]
    simp only [h, if_neg, h2, if_pos, Bool.false_eq_true, if_false, if_true, joinL, ih]
    simp [eq_false h, h2, joinL, ih]
  | case5 c c2 rest h h2 heq ih =>
    rw [heq] at ih
    cases ih
  | case6 c c2 rest h h2 l ls heq ih =>
    rw [splitlines.eq_def]
    simp only [eq_false h, h2, Bool.false_eq_true, if_false, heq, joinL]
    rw [heq] at ih
    simp only [joinL] at ih
    simp [ih]

theorem properLine_nil : properLine [] = false := rfl

theorem properLine_ne_nil {l : Text} (h : properLine l = true) : l ≠ [] := by
  intro he
  rw [he, properLine_nil] at h
  cases h

theorem properLine_cons {c : Char} {l : Text} (hc : isBreakChar c = false)
    (hl : properLine l = true) : properLine (c :: l) = true := by
  rw [properLine.eq_def]
  split
  · rename_i heq
    exact absurd heq (List.cons_ne_nil _ _)
  · rename_i c' heq
    injection heq with h1 h2
    rw [h2] at hl
    exact absurd hl (by rw [properLine_nil]; simp)
  · rename_i c' c2' rest' heq
    injection heq with h1 h2
    subst h1
    split
    · rfl
    · rw [← h2, hl, hc]
      rfl

theorem splitlines_cons_ne_nil (c : Char) (r : Text) : splitlines (c :: r) ≠ [] := by
  intro h
  have := joinL_splitlines (c :: r)
  rw [h] at this
  cases this

theorem splitlines_head {s : Text} {l : Text} {ls : List Text}
    (h : splitlines s = l :: ls) : l.head? = s.head? := by
  induction s using splitlines.induct with
  | case1 => cases h
  | case2 c =>
    rw [splitlines] at h
    injection h with h1 _
    rw [← h1]
  | case3 c c2 rest hb _ =>
    simp only [Bool.and_eq_true, beq_iff_eq] at hb
    obtain ⟨rfl, rfl⟩ := hb
    rw [splitlines.eq_def] at h
    simp only [if_pos] at h
    injection h with h1 _
    rw [← h1]
    rfl
  | case4 c c2 rest hb h2 _ =>
    rw [splitlines.eq_def] at h
    simp only [eq_false hb, h2, Bool.false_eq_true, if_false, if_true] at h
    injection h with h1 _
    rw [← h1]
    rfl
  | case5 c c2 rest hb h2 heq _ =>
    exact absurd heq (splitlines_cons_ne_nil c2 rest)
  | case6 c c2 rest hb h2 l' ls' heq _ =>
    rw [splitlines.eq_def] at h
    simp only [eq_false hb, h2, Bool.false_eq_true, if_false, heq] at h
    injection h with h1 _
    rw [← h1]
    rfl

theorem noBreakNe_cons {c : Char} {l : Text} (hc : isBreakChar c = false)
    (hl : noBreakNe l = true) : noBreakNe (c :: l) = true := by
  simp only [noBreakNe, noBreak, Bool.and_eq_true, List.all_cons] at *
  exact ⟨by simp, by simp [hc], hl.2⟩

theorem properLast_cons {c : Char} {l : Text} (hc : isBreakChar c = false)
    (hl : properLast l = true) : properLast (c :: l) = true := by
  rw [properLast, Bool.or_eq_true] at *
  rcases hl with h | h
  · exact Or.inl (properLine_cons hc h)
  · exact Or.inr (noBreakNe_cons hc h)

theorem getLast?_cons_of_ne_nil {c : Char} {l : Text} (h : l ≠ []) :
    (c :: l).getLast? = l.getLast? := by
  cases l with
  | nil => exact absurd rfl h
  | cons a t => rw [List.getLast?_cons_cons]

theorem chainOK_splitlines (s : Text) : chainOK (splitlines s) = true := by
  induction s using splitlines.induct with
  | case1 => rfl
  | case2 c =>
    rw [splitlines]
    by_cases hb : isBreakChar c <;>
      simp [chainOK, headOK, properLast, properLine, noBreakNe, noBreak, hb]
  | case3 c c2 rest hb ih =>
    simp only [Bool.and_eq_true, beq_iff_eq] at hb
    obtain ⟨rfl, rfl⟩ := hb
    have hs : splitlines ('\r' :: '\n' :: rest) = ['\r', '\n'] :: splitlines rest := by
      rw [splitlines.eq_def]
      rfl
    rw [hs, chainOK, Bool.and_eq_true]
    refine ⟨?_, ih⟩
    cases hsp : splitlines rest with
    | nil => decide
    | cons l2 ls2 => simp [headOK, chainPair, properLine]
  | case4 c c2 rest hb h2 ih =>
    have hs : splitlines (c :: c2 :: rest) = [c] :: splitlines (c2 :: rest) := by
      rw [splitlines.eq_def]
      simp [eq_false hb, h2]
    rw [hs, chainOK, Bool.and_eq_true]
    refine ⟨?_, ih⟩
    cases hsp : splitlines (c2 :: rest) with
    | nil => exact absurd hsp (splitlines_cons_ne_nil c2 rest)
    | cons l2 ls2 =>
      have hh : l2.head? = some c2 := splitlines_head hsp
      simp only [headOK, chainPair, hh, Bool.and_eq_true]
      refine ⟨by simp [properLine, h2], ?_⟩
      by_cases hc : c = '\r'
      · subst hc
        simp only [Bool.and_eq_true, beq_iff_eq] at hb
        push_neg at hb
        simp [hb trivial]
      · simp [hc]
  | case5 c c2 rest hb h2 heq ih =>
    exact absurd heq (splitlines_cons_ne_nil c2 rest)
  | case6 c c2 rest hb h2 l' ls' heq ih =>
    have hs : splitlines (c :: c2 :: rest) = (c :: l') :: ls' := by
      rw [splitlines.eq_def]
      simp [eq_false hb, h2, heq]
    rw [hs]
    rw [heq, chainOK, Bool.and_eq_true] at ih
    obtain ⟨ihh, iht⟩ := ih
    rw [chainOK, Bool.and_eq_true]
    refine ⟨?_, iht⟩
    have hc : isBreakChar c = false := by simpa using h2
    cases ls' with
    | nil =>
      rw [headOK] at ihh ⊢
      exact properLast_cons hc ihh
    | cons l2 ls2 =>
      rw [headOK] at ihh ⊢
      rw [Bool.and_eq_true] at ihh
      rw [Bool.and_eq_true]
      refine ⟨properLine_cons hc ihh.1, ?_⟩
      unfold chainPair at ihh ⊢
      rw [getLast?_cons_of_ne_nil (properLine_ne_nil ihh.1)]
      exact ihh.2

theorem noBreakNe_ne_nil {l : Text} (h : noBreakNe l = true) : l ≠ [] := by
  intro he
  rw [he] at h
  cases h

theorem properLast_ne_nil {l : Text} (h : properLast l = true) : l ≠ [] := by
  rw [properLast, Bool.or_eq_true] at h
  rcases h with h | h
  · exact properLine_ne_nil h
  · exact noBreakNe_ne_nil h

theorem splitlines_append {l : Text} (t : Text) (hl : properLine l = true)
    (hp : chainPair l t = true) : splitlines (l ++ t) = l :: splitlines t := by
  induction l using properLine.induct with
  | case1 => exact absurd hl (by rw [properLine_nil]; simp)
  | case2 c =>
    rw [properLine] at hl
    cases t with
    | nil => rw [List.append_nil]; rfl
    | cons c2 r =>
      have hd : ¬c = '\r' ∨ ¬c2 = '\n' := by
        unfold chainPair at hp
        simpa using hp
      have hcond : (c == '\r' && c2 == '\n') = false := by
        rcases hd with hd | hd <;> simp [hd]
      rw [List.singleton_append, splitlines.eq_def]
      simp [hcond, hl]
  | case3 c c2 rest hcond =>
    simp only [Bool.and_eq_true, beq_iff_eq, List.isEmpty_iff] at hcond
    obtain ⟨⟨rfl, rfl⟩, rfl⟩ := hcond
    rw [List.cons_append, List.cons_append, List.nil_append, splitlines.eq_def]
    rfl
  | case4 c c2 rest hcond ih =>
    have hl' : properLine (c :: c2 :: rest) = true := hl
    rw [properLine.eq_def] at hl'
    simp only [eq_false hcond, Bool.false_eq_true, if_false, Bool.and_eq_true] at hl'
    obtain ⟨hc, hrest⟩ := hl'
    have hc' : isBreakChar c = false := by simpa using hc
    have hcr : (c == '\r') = false := by
      by_contra hx
      have : c = '\r' := by simpa using (Bool.not_eq_false _).mp hx
      rw [this] at hc'
      cases hc'
    have hp' : chainPair (c2 :: rest) t = true := by
      unfold chainPair at hp ⊢
      rwa [getLast?_cons_of_ne_nil (properLine_ne_nil hrest)] at hp
    have ihr := ih hrest hp'
    rw [List.cons_append, List.cons_append, splitlines.eq_def]
    simp only [hcr, Bool.false_and, Bool.false_eq_true, if_false, ← List.cons_append]
    rw [ihr]
    simp [hc']

theorem noBreakNe_splitlines_self {l : Text} (h : noBreakNe l = true) : splitlines l = [l] := by
  induction l with
  | nil => exact absurd h (by rw [noBreakNe]; simp)
  | cons c r ih =>
    rw [noBreakNe, noBreak, Bool.and_eq_true, List.all_cons, Bool.and_eq_true] at h
    obtain ⟨_, hc, hr⟩ := h
    have hc' : isBreakChar c = false := by simpa using hc
    cases r with
    | nil => rfl
    | cons c2 r2 =>
      have hr' : noBreakNe (c2 :: r2) = true := by
        rw [noBreakNe, noBreak]
        simp only [Bool.and_eq_true]
        exact ⟨by simp, hr⟩
      have := ih hr'
      rw [splitlines.eq_def]
      have hcr : (c == '\r') = false := by
        by_contra hx
        have hcc : c = '\r' := by simpa using (Bool.not_eq_false _).mp hx
        rw [hcc] at hc'
        cases hc'
      simp only [hcr, Bool.false_and, Bool.false_eq_true, if_false, this]
      simp [hc']

theorem properLast_splitlines_self {l : Text} (h : properLast l = true) : splitlines l = [l] := by
  rw [properLast, Bool.or_eq_true] at h
  rcases h with h | h
  · have := splitlines_append [] h (by unfold chainPair; simp)
    rwa [List.append_nil] at this
  · exact noBreakNe_splitlines_self h

theorem head?_append_of_ne_nil {l : Text} (t : Text) (h : l ≠ []) :
    (l ++ t).head? = l.head? := by
  cases l with
  | nil => exact absurd rfl h
  | cons a r => rfl

theorem splitlines_joinL {L : List Text} (h : chainOK L = true) : splitlines (joinL L) = L := by
  induction L with
  | nil => rfl
  | cons l ls ih =>
    rw [chainOK, Bool.and_eq_true] at h
    obtain ⟨hh, ht⟩ := h
    cases ls with
    | nil =>
      rw [headOK] at hh
      rw [joinL, joinL, List.append_nil]
      exact properLast_splitlines_self hh
    | cons l2 ls2 =>
      rw [headOK, Bool.and_eq_true] at hh
      obtain ⟨hpl, hcp⟩ := hh
      have hl2ne : l2 ≠ [] := by
        rw [chainOK, Bool.and_eq_true] at ht
        cases ls2 with
        | nil => exact properLast_ne_nil (by rw [headOK] at ht; exact ht.1)
        | cons _ _ =>
          have := ht.1
          rw [headOK, Bool.and_eq_true] at this
          exact properLine_ne_nil this.1
      have hcp' : chainPair l (joinL (l2 :: ls2)) = true := by
        unfold chainPair at hcp ⊢
        rw [joinL, head?_append_of_ne_nil _ hl2ne]
        exact hcp
      rw [joinL, splitlines_append _ hpl hcp', ih ht]

-- ----- facts about the rewritten counter line

theorem digitsToNat_append_digit (l : Text) (c : Char) :
    digitsToNat (l ++ [c]) = 10 * digitsToNat l + (c.toNat - 48) := by
  rw [digitsToNat, digitsToNat, List.foldl_append]
  rfl

theorem digitsToNat_natReprAux : ∀ fuel n, n ≤ fuel → digitsToNat (natReprAux fuel n) = n := by
  intro fuel
  induction fuel with
  | zero =>
    intro n h
    interval_cases n
    rfl
  | succ fuel ih =>
    intro n h
    rw [natReprAux]
    by_cases h0 : n = 0
    · subst h0
      rfl
    · rw [if_neg (by simpa using h0)]
      rw [digitsToNat_append_digit]
      rw [ih (n / 10) (by omega)]
      rw [digitChar_toNat (Nat.mod_lt _ (by omega))]
      omega

theorem digitsToNat_natRepr (n : Nat) : digitsToNat (natRepr n) = n := by
  rw [natRepr]
  by_cases h : n = 0
  · subst h
    rfl
  · rw [if_neg (by simpa using h)]
    exact digitsToNat_natReprAux n n le_rfl

theorem natReprAux_mem_digitChar :
    ∀ (fuel n : Nat) (c : Char), c ∈ natReprAux fuel n → ∃ m, c = digitChar m := by
  intro fuel
  induction fuel with
  | zero =>
    intro n c hc
    cases hc
  | succ fuel ih =>
    intro n c hc
    rw [natReprAux] at hc
    split at hc
    · cases hc
    · rcases List.mem_append.1 hc with h | h
      · exact ih _ _ h
      · rw [List.mem_singleton] at h
        exact ⟨n % 10, h⟩

theorem natRepr_mem_digitChar {c : Char} {n : Nat} (h : c ∈ natRepr n) :
    ∃ m, c = digitChar m := by
  rw [natRepr] at h
  split at h
  · rw [List.mem_singleton] at h
    exact ⟨0, h⟩
  · exact natReprAux_mem_digitChar _ _ _ h

theorem natRepr_ne_nil (n : Nat) : natRepr n ≠ [] := by
  rw [natRepr]
  split
  · simp
  · rename_i h
    have h' : n ≠ 0 := by simpa using h
    obtain ⟨m, rfl⟩ := Nat.exists_eq_succ_of_ne_zero h'
    rw [natReprAux]
    simp

theorem noBreak_natRepr (n : Nat) : noBreak (natRepr n) = true := by
  rw [noBreak, List.all_eq_true]
  intro c hc
  obtain ⟨m, rfl⟩ := natRepr_mem_digitChar hc
  simp [isBreakChar_digitChar]

theorem takeWhile_append_all {p : Char → Bool} :
    ∀ {l : Text} (r : Text), (∀ c ∈ l, p c = true) →
      (l ++ r).takeWhile p = l ++ r.takeWhile p := by
  intro l
  induction l with
  | nil => intro r _; rfl
  | cons c t ih =>
    intro r h
    rw [List.cons_append, List.takeWhile_cons, if_pos (h c (List.mem_cons_self c t)),
      List.cons_append]
    rw [ih r fun x hx => h x (List.mem_cons_of_mem c hx)]

theorem dropWhile_append_all {p : Char → Bool} :
    ∀ {l : Text} (r : Text), (∀ c ∈ l, p c = true) →
      (l ++ r).dropWhile p = r.dropWhile p := by
  intro l
  induction l with
  | nil => intro r _; rfl
  | cons c t ih =>
    intro r h
    rw [List.cons_append, List.dropWhile_cons, if_pos (h c (List.mem_cons_self c t))]
    exact ih r fun x hx => h x (List.mem_cons_of_mem c hx)

theorem natRepr_all_isDigit (n : Nat) : ∀ c ∈ natRepr n, Char.isDigit c = true := by
  intro c hc
  obtain ⟨m, rfl⟩ := natRepr_mem_digitChar hc
  exact digitChar_isDigit m

theorem drop11_numLine (n : Nat) : (numLine n).drop 11 = ' ' :: (natRepr n ++ ['\n']) := rfl

theorem dropWhile_pySpace_numTail (n : Nat) :
    (' ' :: (natRepr n ++ ['\n'])).dropWhile pySpace = natRepr n ++ ['\n'] := by
  rw [List.dropWhile_cons, if_pos (by decide)]
  obtain ⟨c, rest, hcr⟩ : ∃ c rest, natRepr n = c :: rest := by
    cases hh : natRepr n with
    | nil => exact absurd hh (natRepr_ne_nil n)
    | cons c r => exact ⟨c, r, rfl⟩
  obtain ⟨m, hm⟩ := natRepr_mem_digitChar (hcr ▸ List.mem_cons_self c rest)
  rw [hcr, List.cons_append, List.dropWhile_cons, if_neg (by simp [hm, pySpace_digitChar])]

theorem takeWhile_digits_numTail (n : Nat) :
    (natRepr n ++ ['\n']).takeWhile Char.isDigit = natRepr n := by
  rw [takeWhile_append_all _ (natRepr_all_isDigit n)]
  simp [List.takeWhile_cons]

theorem dropWhile_digits_numTail (n : Nat) :
    (natRepr n ++ ['\n']).dropWhile Char.isDigit = ['\n'] := by
  rw [dropWhile_append_all _ (natRepr_all_isDigit n)]
  simp [List.dropWhile_cons]

theorem numMatch_numLine (n : Nat) : numMatch (numLine n) = true := by
  rw [numMatch]
  have hpre : (String.toList "num_glyphs:").isPrefixOf (numLine n) = true := rfl
  rw [hpre]
  simp only [Bool.true_and, drop11_numLine, dropWhile_pySpace_numTail,
    takeWhile_digits_numTail, dropWhile_digits_numTail]
  rw [isEmpty_false_of_ne_nil (natRepr_ne_nil n)]
  decide

theorem numVal_numLine (n : Nat) : numVal (numLine n) = some n := by
  rw [numVal, if_pos (numMatch_numLine n)]
  rw [drop11_numLine, dropWhile_pySpace_numTail, takeWhile_digits_numTail,
    digitsToNat_natRepr]

theorem properLine_append_nl {core : Text} (h : noBreak core = true) :
    properLine (core ++ ['\n']) = true := by
  induction core with
  | nil => rfl
  | cons c t ih =>
    rw [noBreak, List.all_cons, Bool.and_eq_true] at h
    have hc : isBreakChar c = false := by simpa using h.1
    have ht := ih (by rw [noBreak]; exact h.2)
    rw [List.cons_append]
    exact properLine_cons hc ht

theorem properLine_numLine (n : Nat) : properLine (numLine n) = true := by
  have : numLine n = (String.toList "num_glyphs: " ++ natRepr n) ++ ['\n'] := by
    rw [numLine, List.append_assoc]
  rw [this]
  refine properLine_append_nl ?_
  rw [noBreak, List.all_append, Bool.and_eq_true]
  exact ⟨by decide, noBreak_natRepr n⟩

theorem numLine_head (n : Nat) : (numLine n).head? = some 'n' := rfl

theorem numLine_getLast (n : Nat) : (numLine n).getLast? = some '\n' := by
  have : numLine n = (String.toList "num_glyphs: " ++ natRepr n) ++ ['\n'] := by
    rw [numLine, List.append_assoc]
  rw [this, List.getLast?_concat]

-- ----- preservation of the line-chain shape by the counter rewriter

theorem headOK_numLine (n : Nat) : ∀ ls : List Text, headOK (numLine n) ls = true := by
  intro ls
  cases ls with
  | nil =>
    rw [headOK, properLast, Bool.or_eq_true]
    exact Or.inl (properLine_numLine n)
  | cons l2 ls2 =>
    rw [headOK, Bool.and_eq_true]
    refine ⟨properLine_numLine n, ?_⟩
    unfold chainPair
    rw [numLine_getLast]
    simp

theorem headOK_replaceFirstNum {l : Text} {ls : List Text} {n : Nat}
    (h : headOK l ls = true) : headOK l (replaceFirstNum n ls) = true := by
  cases ls with
  | nil => exact h
  | cons l2 ls2 =>
    rw [headOK, Bool.and_eq_true] at h
    rw [replaceFirstNum]
    by_cases hm : numMatch l2
    · rw [if_pos hm, headOK, Bool.and_eq_true]
      refine ⟨h.1, ?_⟩
      unfold chainPair
      rw [numLine_head]
      simp
    · rw [if_neg hm, headOK, Bool.and_eq_true]
      exact h

theorem headOK_insertNum {l : Text} {ls : List Text} {n : Nat}
    (h : headOK l ls = true) : headOK l (insertNum n ls) = true := by
  cases ls with
  | nil => exact h
  | cons l2 ls2 =>
    rw [headOK, Bool.and_eq_true] at h
    rw [insertNum]
    by_cases hg : glyphsStripLine l2
    · rw [if_pos hg, headOK, Bool.and_eq_true]
      refine ⟨h.1, ?_⟩
      unfold chainPair
      rw [numLine_head]
      simp
    · rw [if_neg hg, headOK, Bool.and_eq_true]
      exact h

theorem chainOK_replaceFirstNum {n : Nat} :
    ∀ {L : List Text}, chainOK L = true → chainOK (replaceFirstNum n L) = true := by
  intro L
  induction L with
  | nil => intro h; exact h
  | cons l ls ih =>
    intro h
    rw [chainOK, Bool.and_eq_true] at h
    rw [replaceFirstNum]
    by_cases hm : numMatch l
    · rw [if_pos hm, chainOK, Bool.and_eq_true]
      exact ⟨headOK_numLine n ls, h.2⟩
    · rw [if_neg hm, chainOK, Bool.and_eq_true]
      exact ⟨headOK_replaceFirstNum h.1, ih h.2⟩

theorem chainOK_insertNum {n : Nat} :
    ∀ {L : List Text}, chainOK L = true → chainOK (insertNum n L) = true := by
  intro L
  induction L with
  | nil => intro h; exact h
  | cons l ls ih =>
    intro h
    rw [chainOK, Bool.and_eq_true] at h
    rw [insertNum]
    by_cases hg : glyphsStripLine l
    · rw [if_pos hg, chainOK, Bool.and_eq_true]
      refine ⟨headOK_numLine n (l :: insertNum n ls), ?_⟩
      rw [chainOK, Bool.and_eq_true]
      exact ⟨headOK_insertNum h.1, ih h.2⟩
    · rw [if_neg hg, chainOK, Bool.and_eq_true]
      exact ⟨headOK_insertNum h.1, ih h.2⟩

/-- `rebuild_num_glyphs` written without the intermediate `let`s. -/
theorem rebuild_eq (x : Text) (n : Nat) :
    rebuild_num_glyphs x n =
      if (splitlines x).any numMatch then joinL (replaceFirstNum n (splitlines x))
      else joinL (insertNum n (splitlines x)) := rfl

theorem rebuild_lines (x : Text) (n : Nat) :
    splitlines (rebuild_num_glyphs x n) =
      if (splitlines x).any numMatch then replaceFirstNum n (splitlines x)
      else insertNum n (splitlines x) := by
  rw [rebuild_eq]
  by_cases ha : (splitlines x).any numMatch
  · rw [if_pos ha, if_pos ha, splitlines_joinL (chainOK_replaceFirstNum (chainOK_splitlines x))]
  · rw [if_neg ha, if_neg ha, splitlines_joinL (chainOK_insertNum (chainOK_splitlines x))]

-- ----- idempotence and extraction lemmas for the rewritten line lists

theorem replaceFirstNum_idem (n : Nat) :
    ∀ L : List Text, replaceFirstNum n (replaceFirstNum n L) = replaceFirstNum n L := by
  intro L
  induction L with
  | nil => rfl
  | cons l ls ih =>
    rw [replaceFirstNum]
    by_cases hm : numMatch l
    · rw [if_pos hm, replaceFirstNum, if_pos (numMatch_numLine n)]
    · rw [if_neg hm, replaceFirstNum, if_neg hm, ih]

theorem any_numMatch_replaceFirstNum {n : Nat} :
    ∀ {L : List Text}, L.any numMatch = true →
      (replaceFirstNum n L).any numMatch = true := by
  intro L
  induction L with
  | nil => intro h; cases h
  | cons l ls ih =>
    intro h
    rw [replaceFirstNum]
    by_cases hm : numMatch l
    · rw [if_pos hm, List.any_cons, numMatch_numLine n]
      rfl
    · rw [if_neg hm, List.any_cons]
      rw [List.any_cons, Bool.or_eq_true] at h
      rcases h with h' | h'
      · exact absurd h' hm
      · rw [ih h']
        simp

theorem insertNum_no_glyphs {n : Nat} :
    ∀ {L : List Text}, (∀ l ∈ L, glyphsStripLine l = false) → insertNum n L = L := by
  intro L
  induction L with
  | nil => intro _; rfl
  | cons l ls ih =>
    intro h
    rw [insertNum, if_neg (by rw [h l (List.mem_cons_self l ls)]; simp),
      ih fun x hx => h x (List.mem_cons_of_mem l hx)]

theorem any_numMatch_insertNum {n : Nat} :
    ∀ {L : List Text}, L.any glyphsStripLine = true →
      (insertNum n L).any numMatch = true := by
  intro L
  induction L with
  | nil => intro h; cases h
  | cons l ls ih =>
    intro h
    rw [insertNum]
    by_cases hg : glyphsStripLine l
    · rw [if_pos hg, List.any_cons, numMatch_numLine n]
      rfl
    · rw [List.any_cons, Bool.or_eq_true] at h
      rcases h with h' | h'
      · exact absurd h' hg
      · rw [if_neg hg, List.any_cons, ih h']
        simp

theorem replaceFirstNum_insertNum {n : Nat} :
    ∀ {L : List Text}, (∀ l ∈ L, numMatch l = false) →
      replaceFirstNum n (insertNum n L) = insertNum n L := by
  intro L
  induction L with
  | nil => intro _; rfl
  | cons l ls ih =>
    intro h
    have hl : numMatch l = false := h l (List.mem_cons_self l ls)
    have hls : ∀ x ∈ ls, numMatch x = false := fun x hx => h x (List.mem_cons_of_mem l hx)
    rw [insertNum]
    by_cases hg : glyphsStripLine l
    · rw [if_pos hg, replaceFirstNum, if_pos (numMatch_numLine n)]
    · rw [if_neg hg, replaceFirstNum, if_neg (by rw [hl]; simp), ih hls]

/-- C7: rewriting the counter twice with the same count equals rewriting it
once. -/
theorem c7_rebuild_idempotent (x : Text) (n : Nat) :
    rebuild_num_glyphs (rebuild_num_glyphs x n) n = rebuild_num_glyphs x n := by
  by_cases ha : (splitlines x).any numMatch
  · have hlines : splitlines (rebuild_num_glyphs x n) = replaceFirstNum n (splitlines x) := by
      rw [rebuild_lines, if_pos ha]
    rw [rebuild_eq (rebuild_num_glyphs x n) n, hlines,
      if_pos (any_numMatch_replaceFirstNum ha), replaceFirstNum_idem, rebuild_eq, if_pos ha]
  · have hnom : ∀ l ∈ splitlines x, numMatch l = false := by
      intro l hl
      rcases Bool.eq_false_or_eq_true (numMatch l) with h' | h'
      · exact absurd (List.any_eq_true.2 ⟨l, hl, h'⟩) ha
      · exact h'
    by_cases hg : (splitlines x).any glyphsStripLine
    · have hlines : splitlines (rebuild_num_glyphs x n) = insertNum n (splitlines x) := by
        rw [rebuild_lines, if_neg ha]
      rw [rebuild_eq (rebuild_num_glyphs x n) n, hlines,
        if_pos (any_numMatch_insertNum hg), replaceFirstNum_insertNum hnom,
        rebuild_eq, if_neg ha]
    · have hins : insertNum n (splitlines x) = splitlines x := by
        refine insertNum_no_glyphs ?_
        intro l hl
        rcases Bool.eq_false_or_eq_true (glyphsStripLine l) with h' | h'
        · exact absurd (List.any_eq_true.2 ⟨l, hl, h'⟩) hg
        · exact h'
      have hx : rebuild_num_glyphs x n = x := by
        rw [rebuild_eq, if_neg ha, hins, joinL_splitlines]
      rw [hx]
      exact hx

theorem numVal_eq_none {l : Text} (h : numMatch l = false) : numVal l = none := by
  rw [numVal, if_neg (by rw [h]; simp)]

theorem firstNumVal_eq_none : ∀ {L : List Text}, L.any numMatch = false →
    firstNumVal L = none := by
  intro L
  induction L with
  | nil => intro _; rfl
  | cons l ls ih =>
    intro h
    rw [List.any_cons, Bool.or_eq_false_iff] at h
    rw [firstNumVal, numVal_eq_none h.1, ih h.2]

theorem firstNumVal_replaceFirstNum {n : Nat} :
    ∀ {L : List Text}, L.any numMatch = true →
      firstNumVal (replaceFirstNum n L) = some n := by
  intro L
  induction L with
  | nil => intro h; cases h
  | cons l ls ih =>
    intro h
    rw [replaceFirstNum]
    by_cases hm : numMatch l
    · rw [if_pos hm, firstNumVal, numVal_numLine]
    · rw [List.any_cons, Bool.or_eq_true] at h
      rcases h with h' | h'
      · exact absurd h' hm
      · rw [if_neg hm, firstNumVal, numVal_eq_none (by simpa using hm), ih h']

theorem firstNumVal_insertNum {n : Nat} :
    ∀ {L : List Text}, (∀ l ∈ L, numMatch l = false) →
      L.any glyphsStripLine = true → firstNumVal (insertNum n L) = some n := by
  intro L
  induction L with
  | nil => intro _ h; cases h
  | cons l ls ih =>
    intro hm hg
    rw [insertNum]
    by_cases hgl : glyphsStripLine l
    · rw [if_pos hgl, firstNumVal, numVal_numLine]
    · rw [List.any_cons, Bool.or_eq_true] at hg
      rcases hg with h' | h'
      · exact absurd h' hgl
      · rw [if_neg hgl, firstNumVal, numVal_eq_none (hm l (List.mem_cons_self l ls)),
          ih (fun x hx => hm x (List.mem_cons_of_mem l hx)) h']

theorem extractNumVal_rebuild (x : Text) (n : Nat) :
    extractNumVal (rebuild_num_glyphs x n) = some n ∨
      extractNumVal (rebuild_num_glyphs x n) = none := by
  rw [extractNumVal, rebuild_lines]
  by_cases ha : (splitlines x).any numMatch
  · rw [if_pos ha]
    exact Or.inl (firstNumVal_replaceFirstNum ha)
  · rw [if_neg ha]
    have hnom : ∀ l ∈ splitlines x, numMatch l = false := by
      intro l hl
      rcases Bool.eq_false_or_eq_true (numMatch l) with h' | h'
      · exact absurd (List.any_eq_true.2 ⟨l, hl, h'⟩) ha
      · exact h'
    by_cases hg : (splitlines x).any glyphsStripLine
    · exact Or.inl (firstNumVal_insertNum hnom hg)
    · right
      have hins : insertNum n (splitlines x) = splitlines x := by
        refine insertNum_no_glyphs ?_
        intro l hl
        rcases Bool.eq_false_or_eq_true (glyphsStripLine l) with h' | h'
        · exact absurd (List.any_eq_true.2 ⟨l, hl, h'⟩) hg
        · exact h'
      rw [hins]
      exact firstNumVal_eq_none (by simpa using ha)

theorem filterMap_length_of_isSome {f : Nat → Option Text} :
    ∀ {L : List Nat}, (∀ k ∈ L, (f k).isSome = true) →
      (L.filterMap f).length = L.length := by
  intro L
  induction L with
  | nil => intro _; rfl
  | cons k ks ih =>
    intro h
    obtain ⟨v, hv⟩ := Option.isSome_iff_exists.1 (h k (List.mem_cons_self k ks))
    rw [List.filterMap_cons, hv, List.length_cons,
      ih fun x hx => h x (List.mem_cons_of_mem k hx)]
    rfl

theorem bodyBlocksOf_length (base ours theirs : Text) (choices : Nat → Option Text) :
    (bodyBlocksOf base ours theirs choices).length =
      (presentListOf base ours theirs choices).length := by
  rw [bodyBlocksOf]
  refine filterMap_length_of_isSome ?_
  intro k hk
  rw [presentListOf, List.mem_filter] at hk
  obtain ⟨v, hv⟩ := Option.isSome_iff_exists.1 hk.2
  rw [hv]
  rfl

/-- C6: whenever the merged document's header carries a counter line, the
integer in the first such line equals the number of present records of the
MergeOutcome, which is also the number of record blocks placed in the output
body. -/
theorem c6_counter_correctness (base ours theirs : Text) (choices : Nat → Option Text)
    (m : Nat)
    (h : extractNumVal (finalHeaderOf base ours theirs choices) = some m) :
    m = (presentListOf base ours theirs choices).length ∧
    (bodyBlocksOf base ours theirs choices).length =
      (presentListOf base ours theirs choices).length := by
  refine ⟨?_, bodyBlocksOf_length base ours theirs choices⟩
  have h2 : extractNumVal (rebuild_num_glyphs (headerPick base ours theirs)
      (presentListOf base ours theirs choices).length) = some m := h
  rcases extractNumVal_rebuild (headerPick base ours theirs)
      (presentListOf base ours theirs choices).length with h' | h'
  · rw [h2] at h'
    exact Option.some.inj h'
  · rw [h2] at h'
    exact Option.noConfusion h'

theorem c6_counter_correctness_witness :
    extractNumVal (finalHeaderOf scenAbase scenAours scenAbase noChoice) = some 3 ∧
    3 = (presentListOf scenAbase scenAours scenAbase noChoice).length ∧
    (bodyBlocksOf scenAbase scenAours scenAbase noChoice).length =
      (presentListOf scenAbase scenAours scenAbase noChoice).length :=
  ⟨by decide,
    c6_counter_correctness scenAbase scenAours scenAbase noChoice 3 (by decide)⟩
